import Mathlib
set_option linter.unusedVariables false

/-!
Shallow embedding of the stock-news monitor repository
(`stock_news_monitor.py` and its `backtest.py` variant).

Python strings are embedded as `List Char`; the process-lifetime set of
seen URLs (`self.processed_articles`) as a `List Str` used only through
membership; exceptions as `Except`; the external news API response as an
`Except ApiErr (List RawArticle)` parameter.
-/

/-- A Python string, embedded as its list of characters. -/
abbrev Str := List Char

/-- Embed a Lean string literal as a `Str`. -/
def lit (s : String) : Str := s.data

/-- Python `str.lower()` (basic-latin case folding, as in `Char.toLower`). -/
def lowerStr (s : Str) : Str := s.map Char.toLower

/-- Python `str.upper()` (basic-latin case folding, as in `Char.toUpper`). -/
def upperStr (s : Str) : Str := s.map Char.toUpper

/-- Does `hay` start with `needle`? (helper for Python's `in` on strings). -/
def strStartsWith : Str → Str → Bool
  | _, [] => true
  | [], _ :: _ => false
  | c :: cs, d :: ds => c == d && strStartsWith cs ds

/-- Python's substring test `needle in hay`. -/
def strContains : Str → Str → Bool
  | [], needle => needle.isEmpty
  | c :: cs, needle => strStartsWith (c :: cs) needle || strContains cs needle

/-- Mathematical statement that `needle` occurs contiguously inside `hay`. -/
def occursIn (needle hay : Str) : Prop := ∃ pre post, hay = pre ++ needle ++ post

/-- Exceptions raised by the embedded Python code. -/
inductive PyErr where
  | keyError (key : Str)
  | typeError (kwarg : Str)
  deriving DecidableEq

/-- Failures of the external news API call (`newsapi.get_everything`). -/
inductive ApiErr where
  | network
  | auth
  | rateLimit
  | malformed
  deriving DecidableEq

/-- A raw article dictionary as returned by the external API: each field
may be absent (`.get` with a default / `['url']` raising `KeyError`). -/
structure RawArticle where
  title : Option Str
  url : Option Str
  publishedAt : Option Str
  description : Option Str
  sourceName : Option Str
  deriving DecidableEq

/-- `NewsArticle` dataclass of `stock_news_monitor.py` (has `description`). -/
structure NewsArticle where
  title : Str
  url : Str
  published_at : Str
  description : Str
  matched_keywords : List Str
  ticker : Option Str
  deriving DecidableEq

/-- `NewsArticle` dataclass of `backtest.py`: no `source`, no `description`
field is declared. -/
structure BacktestArticle where
  title : Str
  url : Str
  published_at : Str
  matched_keywords : List Str
  ticker : Option Str
  deriving DecidableEq

/-- `NewsMonitor._extract_matched_keywords` (identical in both variants):
lower-cases the text, then appends to `matched` each configured keyword
whose lower-casing is a substring of the lowered text. -/
def extract_matched_keywords (keywords : List Str) (article_text : Str) : List Str :=
  let text_lower := lowerStr article_text
  keywords.foldl (fun matched keyword =>
    if strContains text_lower (lowerStr keyword) then matched ++ [keyword] else matched) []

/-- Python `dict.get(k, d)` on an association list. -/
def dictGet (m : List (Str × Str)) (k d : Str) : Str :=
  match m.lookup k with
  | some v => v
  | none => d

/-- Double-quote a term, as the f-string `f'"{x}"'` does. -/
def quoteTerm (s : Str) : Str := lit "\"" ++ s ++ lit "\""

/-- `NewsMonitor._build_search_query` (identical in both variants):
`(base_query) AND (keyword_query)` where `base_query` is
`"ticker" OR "company"` (company looked up in the ticker mapping with the
ticker itself as default) and `keyword_query` joins quoted keywords
with `OR`. -/
def build_search_query (tickerToCompany : List (Str × Str)) (keywords : List Str)
    (ticker : Str) : Str :=
  let company_name := dictGet tickerToCompany ticker ticker
  let base_query := quoteTerm ticker ++ lit " OR " ++ quoteTerm company_name
  let keyword_query := List.intercalate (lit " OR ") (keywords.map quoteTerm)
  lit "(" ++ base_query ++ lit ") AND (" ++ keyword_query ++ lit ")"

/-- The text whose keywords are matched:
`f"{article.get('title', '')} {article.get('description', '')}"`. -/
def textOf (r : RawArticle) : Str := r.title.getD [] ++ lit " " ++ r.description.getD []

/-- Construction of the monitor-variant `NewsArticle` for a raw article whose
URL lookup yielded `u`, with `matched_keywords` already reassigned to the
extracted list (the code constructs with `[]` and then overwrites the
field before use). -/
def mkNewsArticle (keywords : List Str) (ticker : Str) (r : RawArticle) (u : Str) :
    NewsArticle :=
  { title := r.title.getD (lit "No title")
    url := u
    published_at := r.publishedAt.getD []
    description := r.description.getD []
    matched_keywords := extract_matched_keywords keywords (textOf r)
    ticker := some ticker }

/-- The field names declared by the `backtest.py` `NewsArticle` dataclass. -/
def backtestArticleFields : List Str :=
  [lit "title", lit "url", lit "published_at", lit "matched_keywords", lit "ticker"]

/-- The keyword-argument names passed at the `NewsArticle(...)` call site in
`backtest.py`'s `fetch_news_for_ticker`. -/
def backtestCallKwargs : List Str :=
  [lit "title", lit "url", lit "published_at", lit "source", lit "description",
   lit "matched_keywords", lit "ticker"]

/-- The `NewsArticle(...)` call in `backtest.py`: Python raises `TypeError`
on the first keyword argument not declared by the dataclass; otherwise the
object is built from the declared fields. -/
def mkBacktestArticle (keywords : List Str) (ticker : Str) (r : RawArticle) (u : Str) :
    Except PyErr BacktestArticle :=
  match backtestCallKwargs.find? (fun k => !(backtestArticleFields.contains k)) with
  | some k => .error (.typeError k)
  | none =>
    .ok { title := r.title.getD (lit "No title")
          url := u
          published_at := r.publishedAt.getD []
          matched_keywords := extract_matched_keywords keywords (textOf r)
          ticker := some ticker }

/-- The per-article loop of the monitor variant's `fetch_news_for_ticker`:
skip URLs already in `processed_articles`; build the article; if any
keyword matched, append it and add its URL to `processed_articles`.
A missing `'url'` key raises `KeyError` at the membership test; the pair's
second component is the `processed_articles` state at that point (mutations
made before the exception persist). -/
def fetch_loop (keywords : List Str) (ticker : Str) :
    List RawArticle → List Str → Except PyErr (List NewsArticle) × List Str
  | [], processed => (.ok [], processed)
  | r :: rs, processed =>
    match r.url with
    | none => (.error (.keyError (lit "url")), processed)
    | some u =>
      if u ∈ processed then fetch_loop keywords ticker rs processed
      else
        let art := mkNewsArticle keywords ticker r u
        if art.matched_keywords = [] then fetch_loop keywords ticker rs processed
        else
          match fetch_loop keywords ticker rs (u :: processed) with
          | (res, processed') => (res.map (fun out => art :: out), processed')

/-- Monitor-variant `fetch_news_for_ticker`: the whole body is wrapped in
`try/except Exception`; an API failure or any exception in the loop is
caught and the function returns `[]`, keeping whatever state mutations the
loop already made. -/
def fetch_news_for_ticker (keywords : List Str) (ticker : Str)
    (api : Except ApiErr (List RawArticle)) (processed : List Str) :
    List NewsArticle × List Str :=
  match api with
  | .error _ => ([], processed)
  | .ok arts =>
    match fetch_loop keywords ticker arts processed with
    | (.ok out, processed') => (out, processed')
    | (.error _, processed') => ([], processed')

/-- The per-article loop of `backtest.py`'s `fetch_news_for_ticker`: the
`NewsArticle(...)` construction is reached for every unseen article with a
URL and raises `TypeError` there, before any state mutation. -/
def backtest_fetch_loop (keywords : List Str) (ticker : Str) :
    List RawArticle → List Str → Except PyErr (List BacktestArticle) × List Str
  | [], processed => (.ok [], processed)
  | r :: rs, processed =>
    match r.url with
    | none => (.error (.keyError (lit "url")), processed)
    | some u =>
      if u ∈ processed then backtest_fetch_loop keywords ticker rs processed
      else
        match mkBacktestArticle keywords ticker r u with
        | .error e => (.error e, processed)
        | .ok art =>
          if art.matched_keywords = [] then backtest_fetch_loop keywords ticker rs processed
          else
            match backtest_fetch_loop keywords ticker rs (u :: processed) with
            | (res, processed') => (res.map (fun out => art :: out), processed')

/-- `backtest.py`'s `fetch_news_for_ticker` with its `try/except` wrapper. -/
def backtest_fetch_news_for_ticker (keywords : List Str) (ticker : Str)
    (api : Except ApiErr (List RawArticle)) (processed : List Str) :
    List BacktestArticle × List Str :=
  match api with
  | .error _ => ([], processed)
  | .ok arts =>
    match backtest_fetch_loop keywords ticker arts processed with
    | (.ok out, processed') => (out, processed')
    | (.error _, processed') => ([], processed')

/-- `NewsMonitor.check_news`: one cycle over the configured tickers in
order; each ticker's fetch result is processed (emitted) in order. The
environment `env` gives each ticker's API outcome for this cycle. -/
def check_news (keywords : List Str) (env : Str → Except ApiErr (List RawArticle)) :
    List Str → List Str → List NewsArticle × List Str
  | [], processed => ([], processed)
  | t :: ts, processed =>
    match fetch_news_for_ticker keywords t (env t) processed with
    | (arts, processed') =>
      match check_news keywords env ts processed' with
      | (rest, processed'') => (arts ++ rest, processed'')

/-- A whole process lifetime: a sequence of cycles, each with its own API
environment, threading the `processed_articles` state; returns all articles
emitted over the lifetime, in order. -/
def run_cycles (keywords : List Str) (tickers : List Str) :
    List (Str → Except ApiErr (List RawArticle)) → List Str →
    List NewsArticle × List Str
  | [], processed => ([], processed)
  | env :: envs, processed =>
    match check_news keywords env tickers processed with
    | (out, processed') =>
      match run_cycles keywords tickers envs processed' with
      | (rest, processed'') => (out ++ rest, processed'')

/-- How the caught exception renders inside the f-string
`f"Error in AI analysis: {e}"`. -/
def pyErrRepr (e : PyErr) : Str :=
  match e with
  | .keyError k => quoteTerm k
  | .typeError k => lit "unexpected keyword argument " ++ quoteTerm k

/-- Result dictionary of `NewsMonitor.analyze_with_ai`; the `impact_score`
float `0.5` is embedded as the rational `1/2`. -/
structure AIResult where
  sentiment : Str
  impact_score : ℚ
  summary : Str
  recommendation : Str
  deriving DecidableEq

/-- `NewsMonitor.analyze_with_ai` (monitor variant): a stub that ignores
which URL it is given and returns a fixed neutral payload. -/
def analyze_with_ai (url : Str) : AIResult :=
  { sentiment := lit "neutral"
    impact_score := 1 / 2
    summary := lit "AI analysis not yet implemented"
    recommendation := lit "monitor" }

/-- How a Python f-string renders an `Optional[str]` field (`None` prints
as `None`). -/
def optRepr (o : Option Str) : Str :=
  match o with
  | some s => s
  | none => lit "None"

/-- The `'='*80` separator line. -/
def sepLine : Str := List.replicate 80 '='

/-- The lines of one article block written before the AI-analysis step in
the monitor variant's `process_article` (`ts` is the wall-clock timestamp
string). The description line is present only when the description is
non-empty, and is truncated to its first 200 characters plus `"..."` when
longer than 200 characters. -/
def article_block_lines (ts : Str) (a : NewsArticle) : List Str :=
  [lit "📈 soy news alert - " ++ ts,
   lit "\n" ++ sepLine,
   sepLine,
   lit "Ticker: " ++ optRepr a.ticker,
   lit "Title: " ++ a.title,
   lit "Published: " ++ a.published_at,
   lit "URL: " ++ a.url,
   lit "Matched Keywords: " ++ List.intercalate (lit ", ") a.matched_keywords] ++
  (if a.description ≠ [] then
    [lit "Description: " ++
      (if a.description.length > 200 then a.description.take 200 ++ lit "..."
       else a.description) ++ lit "\n"]
   else [])

/-- Monitor-variant `process_article`, as the list of log lines it writes.
The AI call is passed in as `ai` so that a raising call can be expressed;
the actual program uses `fun u => .ok (analyze_with_ai u)`. On success the
block ends with the AI-summary line; if the AI call raises, the handler
logs the error and ends the block with a closing separator line instead. -/
def process_article (ai : Str → Except PyErr AIResult) (ts : Str) (a : NewsArticle) :
    List Str :=
  article_block_lines ts a ++
  (match ai a.url with
   | .ok ai_result => [lit "AI Analysis: " ++ ai_result.summary ++ lit "\n"]
   | .error e => [lit "Error in AI analysis: " ++ pyErrRepr e, sepLine ++ lit "\n"])

/-- `NewsMonitor._build_ticker_mapping` of the monitor variant: the literal
dictionary `{'Brasil': 'comercio de soja'}`. -/
def build_ticker_mapping_monitor : List (Str × Str) :=
  [(lit "Brasil", lit "comercio de soja")]

/-- The ticker list the monitor variant's `__init__` installs into the
config: `list(self.ticker_to_company.keys())`. -/
def monitor_tickers : List Str := build_ticker_mapping_monitor.map (fun p => p.1)

/-- The ticker list `backtest.py`'s `main` puts into the config:
`[ticker.upper() for ticker in args.tickers]` (argparse `nargs=+` supplies
at least one positional ticker). -/
def backtest_main_tickers (argTickers : List Str) : List Str :=
  argTickers.map upperStr

/-- A string is uppercase-normalized when `upper()` leaves it unchanged. -/
def isUpperNormalized (s : Str) : Bool := upperStr s == s

/-- Bookkeeping invariant used in the emission proofs: the emitted articles
have pairwise distinct URLs, none was in the seen set before the call, all
are in the seen set after the call, and each carries a non-empty matched
keyword list witnessed by a case-insensitive occurrence in its
space-joined title and description. -/
def EmissionOK (keywords : List Str) (pBefore pAfter : List Str)
    (out : List NewsArticle) : Prop :=
  (out.map (fun a => a.url)).Nodup ∧
  ∀ a ∈ out, a.url ∉ pBefore ∧ a.url ∈ pAfter ∧ a.matched_keywords ≠ [] ∧
    ∃ k ∈ keywords, occursIn (lowerStr k) (lowerStr (a.title ++ lit " " ++ a.description))

/-- The query shape the spec prescribes for the query builder:
`("TICKER" OR "alias") AND ("kw1" OR "kw2" OR ...)`, written from the
spec's words for comparison with `build_search_query`. -/
def specQueryShape (ticker aliasName : Str) (keywords : List Str) : Str :=
  lit "(" ++ quoteTerm ticker ++ lit " OR " ++ quoteTerm aliasName ++ lit ") AND ("
    ++ List.intercalate (lit " OR ") (keywords.map quoteTerm) ++ lit ")"

theorem strStartsWith_iff (hay needle : Str) :
    strStartsWith hay needle = true ↔ ∃ rest, hay = needle ++ rest := by
  induction needle generalizing hay with
  | nil =>
    simp only [strStartsWith, List.nil_append, true_iff]
    exact ⟨hay, rfl⟩
  | cons d ds ih =>
    cases hay with
    | nil => simp [strStartsWith]
    | cons c cs =>
      simp only [strStartsWith, Bool.and_eq_true, beq_iff_eq, ih, List.cons_append,
        List.cons.injEq]
      constructor
      · rintro ⟨rfl, rest, rfl⟩
        exact ⟨rest, rfl, rfl⟩
      · rintro ⟨rest, rfl, rfl⟩
        exact ⟨rfl, rest, rfl⟩

theorem strContains_iff (hay needle : Str) :
    strContains hay needle = true ↔ occursIn needle hay := by
  induction hay with
  | nil =>
    simp only [strContains, List.isEmpty_iff, occursIn]
    constructor
    · rintro rfl
      exact ⟨[], [], rfl⟩
    · rintro ⟨pre, post, h⟩
      have h1 := List.append_eq_nil.mp h.symm
      have h2 := List.append_eq_nil.mp h1.1
      exact h2.2
  | cons c cs ih =>
    simp only [strContains, Bool.or_eq_true, strStartsWith_iff, ih, occursIn]
    constructor
    · rintro (⟨rest, h⟩ | ⟨pre, post, h⟩)
      · exact ⟨[], rest, by simp [h]⟩
      · exact ⟨c :: pre, post, by simp [h]⟩
    · rintro ⟨pre, post, h⟩
      cases pre with
      | nil =>
        exact Or.inl ⟨post, by simpa using h⟩
      | cons x xs =>
        have hx : c = x ∧ cs = xs ++ needle ++ post := by
          simpa using h
        exact Or.inr ⟨xs, post, hx.2⟩

theorem foldl_append_filter (p : Str → Bool) (ks : List Str) :
    ∀ acc, List.foldl (fun m k => if p k then m ++ [k] else m) acc ks
      = acc ++ ks.filter p := by
  induction ks with
  | nil => intro acc; simp
  | cons k ks ih =>
    intro acc
    by_cases h : p k <;> simp [List.foldl_cons, h, ih, List.filter_cons]

theorem extract_eq_filter (keywords : List Str) (text : Str) :
    extract_matched_keywords keywords text
      = keywords.filter (fun k => strContains (lowerStr text) (lowerStr k)) := by
  simpa [extract_matched_keywords] using
    foldl_append_filter (fun k => strContains (lowerStr text) (lowerStr k)) keywords []

theorem mem_extract_iff (keywords : List Str) (text : Str) (k : Str) :
    k ∈ extract_matched_keywords keywords text
      ↔ k ∈ keywords ∧ occursIn (lowerStr k) (lowerStr text) := by
  simp [extract_eq_filter, List.mem_filter, strContains_iff]

theorem extract_ne_nil_iff (keywords : List Str) (text : Str) :
    extract_matched_keywords keywords text ≠ []
      ↔ ∃ k ∈ keywords, occursIn (lowerStr k) (lowerStr text) := by
  constructor
  · intro h
    obtain ⟨k, hk⟩ := List.exists_mem_of_ne_nil _ h
    obtain ⟨h1, h2⟩ := (mem_extract_iff keywords text k).mp hk
    exact ⟨k, h1, h2⟩
  · rintro ⟨k, h1, h2⟩
    exact List.ne_nil_of_mem ((mem_extract_iff keywords text k).mpr ⟨h1, h2⟩)

/-- C4: for every text and keyword list, `_extract_matched_keywords` returns
exactly the keywords whose lower-casing occurs as a substring of the
lowered text, filtered in configured-list order: it is the `filter` of the
configured list, membership is equivalent to a case-insensitive substring
occurrence, the result is a sublist of the configured list (so configured
order is preserved, not occurrence order), and a keyword list without
duplicates yields a result without duplicates even when a keyword occurs
many times in the text. -/
theorem c4_extract_matches (keywords : List Str) (text : Str) :
    extract_matched_keywords keywords text
      = keywords.filter (fun k => strContains (lowerStr text) (lowerStr k))
    ∧ (∀ k, k ∈ extract_matched_keywords keywords text
        ↔ k ∈ keywords ∧ occursIn (lowerStr k) (lowerStr text))
    ∧ List.Sublist (extract_matched_keywords keywords text) keywords
    ∧ (keywords.Nodup → (extract_matched_keywords keywords text).Nodup) := by
  refine ⟨extract_eq_filter keywords text, mem_extract_iff keywords text, ?_, ?_⟩
  · rw [extract_eq_filter]
    exact List.filter_sublist keywords
  · intro h
    rw [extract_eq_filter]
    exact h.filter _

/-- Witness for C4 at a concrete input: the text contains `clima` twice
(in two cases) yet the extracted list has no duplicate. -/
theorem c4_witness :
    (extract_matched_keywords [lit "clima", lit "safra"]
      (lit "Clima hoje: o clima muda")).Nodup :=
  (c4_extract_matches [lit "clima", lit "safra"]
    (lit "Clima hoje: o clima muda")).2.2.2 (by decide)

/-- C5: the query builder produces
`("TICKER" OR "alias") AND ("kw1" OR "kw2" OR ...)` with every term
double-quoted, whenever the ticker mapping resolves the ticker to the
alias; in particular, for ticker `ADM`, alias `Archer Daniels Midland`
and keywords `clima`, `safra` it produces exactly
`("ADM" OR "Archer Daniels Midland") AND ("clima" OR "safra")`. -/
theorem c5_build_search_query (m : List (Str × Str)) (ticker aliasName : Str)
    (keywords : List Str) (hm : m.lookup ticker = some aliasName)
    (hk : keywords ≠ []) :
    build_search_query m keywords ticker = specQueryShape ticker aliasName keywords
    ∧ build_search_query [(lit "ADM", lit "Archer Daniels Midland")]
        [lit "clima", lit "safra"] (lit "ADM")
      = lit "(\"ADM\" OR \"Archer Daniels Midland\") AND (\"clima\" OR \"safra\")" := by
  constructor
  · simp [build_search_query, specQueryShape, dictGet, hm]
  · decide

/-- Witness for C5 at the claim's concrete input. -/
theorem c5_witness :
    build_search_query [(lit "ADM", lit "Archer Daniels Midland")]
        [lit "clima", lit "safra"] (lit "ADM")
      = specQueryShape (lit "ADM") (lit "Archer Daniels Midland")
          [lit "clima", lit "safra"] :=
  (c5_build_search_query [(lit "ADM", lit "Archer Daniels Midland")] (lit "ADM")
    (lit "Archer Daniels Midland") [lit "clima", lit "safra"]
    (by decide) (by decide)).1

theorem char_toNat_ofNat_valid (m : Nat) (h : m.isValidChar) :
    (Char.ofNat m).toNat = m := by
  rw [Char.ofNat, dif_pos h]; rfl

theorem toUpper_eq_of_not (c : Char) (h : ¬(97 ≤ c.toNat ∧ c.toNat ≤ 122)) :
    Char.toUpper c = c := by
  unfold Char.toUpper
  rw [if_neg h]

theorem toUpper_toNat_of_lower (c : Char) (h : 97 ≤ c.toNat ∧ c.toNat ≤ 122) :
    (Char.toUpper c).toNat = c.toNat - 32 := by
  unfold Char.toUpper
  rw [if_pos h]
  exact char_toNat_ofNat_valid _ (Or.inl (by omega))

theorem toUpper_idem (c : Char) : Char.toUpper (Char.toUpper c) = Char.toUpper c := by
  by_cases h : 97 ≤ c.toNat ∧ c.toNat ≤ 122
  · have h1 := toUpper_toNat_of_lower c h
    exact toUpper_eq_of_not _ (by omega)
  · rw [toUpper_eq_of_not c h]
    exact toUpper_eq_of_not c h

theorem upperStr_idem (s : Str) : upperStr (upperStr s) = upperStr s := by
  induction s with
  | nil => rfl
  | cons c cs ih => simp [upperStr, toUpper_idem, ih]

theorem isUpperNormalized_upperStr (s : Str) : isUpperNormalized (upperStr s) = true := by
  simp [isUpperNormalized, upperStr_idem]

/-- C7 counterexample: in the monitor variant (`stock_news_monitor.py`),
`__init__` installs `list(self.ticker_to_company.keys())` as the config's
ticker list; that list is `['Brasil']`, and `'Brasil'` is not
uppercase-normalized (`'Brasil'.upper() != 'Brasil'`). -/
theorem c7_counterexample :
    lit "Brasil" ∈ monitor_tickers ∧ isUpperNormalized (lit "Brasil") = false := by
  constructor
  · simp [monitor_tickers, build_ticker_mapping_monitor]
  · decide

/-- C7 amended: in the backtest variant, `main` builds the config's ticker
list as `[ticker.upper() for ticker in args.tickers]` from at least one
positional argument, so the list is non-empty and every ticker in it is
uppercase-normalized; in the monitor variant the ticker list is the
mapping's key list `['Brasil']`, which is non-empty but not
uppercase-normalized. -/
theorem c7_amended (argTickers : List Str) (h : argTickers ≠ []) :
    backtest_main_tickers argTickers ≠ []
    ∧ (∀ t ∈ backtest_main_tickers argTickers, isUpperNormalized t = true)
    ∧ monitor_tickers ≠ [] := by
  refine ⟨?_, ?_, by decide⟩
  · simpa [backtest_main_tickers] using h
  · intro t ht
    obtain ⟨s, _, rfl⟩ := List.mem_map.mp ht
    exact isUpperNormalized_upperStr s

/-- Witness for C7's amended statement on concrete CLI arguments. -/
theorem c7_witness :
    backtest_main_tickers [lit "adm", lit "b3"] ≠ []
    ∧ (∀ t ∈ backtest_main_tickers [lit "adm", lit "b3"], isUpperNormalized t = true)
    ∧ monitor_tickers ≠ [] :=
  c7_amended [lit "adm", lit "b3"] (by decide)

theorem fetch_loop_mono (keywords : List Str) (ticker : Str) (arts : List RawArticle) :
    ∀ p u, u ∈ p → u ∈ (fetch_loop keywords ticker arts p).2 := by
  induction arts with
  | nil => intro p u hu; simpa [fetch_loop] using hu
  | cons r rs ih =>
    intro p u hu
    simp only [fetch_loop]
    cases hurl : r.url with
    | none => simpa using hu
    | some v =>
      by_cases hv : v ∈ p
      · simpa [hv] using ih p u hu
      · by_cases hm : extract_matched_keywords keywords (textOf r) = []
        · simpa [hv, hm, mkNewsArticle] using ih p u hu
        · rcases hq : fetch_loop keywords ticker rs (v :: p) with ⟨res, p'⟩
          have hmem := ih (v :: p) u (List.mem_cons_of_mem _ hu)
          rw [hq] at hmem
          simpa [hv, hm, mkNewsArticle, hq] using hmem

theorem fetch_loop_snd_mem (keywords : List Str) (ticker : Str) (arts : List RawArticle) :
    ∀ p u, u ∈ (fetch_loop keywords ticker arts p).2 →
      u ∈ p ∨ ∃ r ∈ arts, r.url = some u ∧
        extract_matched_keywords keywords (textOf r) ≠ [] := by
  induction arts with
  | nil => intro p u hu; exact Or.inl (by simpa [fetch_loop] using hu)
  | cons r rs ih =>
    intro p u hu
    simp only [fetch_loop] at hu
    cases hurl : r.url with
    | none => rw [hurl] at hu; exact Or.inl (by simpa using hu)
    | some v =>
      rw [hurl] at hu
      dsimp only at hu
      by_cases hv : v ∈ p
      · rw [if_pos hv] at hu
        rcases ih p u hu with h | ⟨r', hr', h⟩
        · exact Or.inl h
        · exact Or.inr ⟨r', List.mem_cons_of_mem _ hr', h⟩
      · rw [if_neg hv] at hu
        by_cases hm : extract_matched_keywords keywords (textOf r) = []
        · rw [if_pos (by simpa [mkNewsArticle] using hm)] at hu
          rcases ih p u hu with h | ⟨r', hr', h⟩
          · exact Or.inl h
          · exact Or.inr ⟨r', List.mem_cons_of_mem _ hr', h⟩
        · rw [if_neg (by simpa [mkNewsArticle] using hm)] at hu
          rcases hq : fetch_loop keywords ticker rs (v :: p) with ⟨res, p'⟩
          rw [hq] at hu
          simp only at hu
          rcases ih (v :: p) u (by rw [hq]; exact hu) with h | ⟨r', hr', h⟩
          · rcases List.mem_cons.mp h with rfl | h
            · exact Or.inr ⟨r, List.mem_cons_self r rs, hurl, hm⟩
            · exact Or.inl h
          · exact Or.inr ⟨r', List.mem_cons_of_mem _ hr', h⟩

theorem fetch_loop_ok_spec (keywords : List Str) (ticker : Str) (arts : List RawArticle) :
    ∀ p out, (fetch_loop keywords ticker arts p).1 = .ok out →
      (out.map (fun a => a.url)).Nodup ∧
      ∀ a ∈ out, a.url ∉ p ∧ a.url ∈ (fetch_loop keywords ticker arts p).2 ∧
        a.matched_keywords ≠ [] ∧
        ∃ r ∈ arts, r.url = some a.url ∧ a = mkNewsArticle keywords ticker r a.url := by
  induction arts with
  | nil =>
    intro p out h
    simp only [fetch_loop, Except.ok.injEq] at h
    subst h
    simp
  | cons r rs ih =>
    intro p out h
    simp only [fetch_loop] at h ⊢
    cases hurl : r.url with
    | none => rw [hurl] at h; simp at h
    | some v =>
      rw [hurl] at h
      dsimp only at h ⊢
      by_cases hv : v ∈ p
      · rw [if_pos hv] at h
        rw [if_pos hv]
        obtain ⟨h1, h2⟩ := ih p out h
        refine ⟨h1, fun a ha => ?_⟩
        obtain ⟨g1, g2, gm, r', hr', g3⟩ := h2 a ha
        exact ⟨g1, g2, gm, r', List.mem_cons_of_mem _ hr', g3⟩
      · rw [if_neg hv] at h
        rw [if_neg hv]
        by_cases hm : extract_matched_keywords keywords (textOf r) = []
        · rw [if_pos (by simpa [mkNewsArticle] using hm)] at h
          rw [if_pos (by simpa [mkNewsArticle] using hm)]
          obtain ⟨h1, h2⟩ := ih p out h
          refine ⟨h1, fun a ha => ?_⟩
          obtain ⟨g1, g2, gm, r', hr', g3⟩ := h2 a ha
          exact ⟨g1, g2, gm, r', List.mem_cons_of_mem _ hr', g3⟩
        · rw [if_neg (by simpa [mkNewsArticle] using hm)] at h
          rw [if_neg (by simpa [mkNewsArticle] using hm)]
          rcases hq : fetch_loop keywords ticker rs (v :: p) with ⟨res, p'⟩
          rw [hq] at h
          simp only at h ⊢
          cases res with
          | error e => simp [Except.map] at h
          | ok out' =>
            simp only [Except.map, Except.ok.injEq] at h
            subst h
            obtain ⟨h1, h2⟩ := ih (v :: p) out' (by rw [hq])
            rw [hq] at h2
            simp only at h2
            constructor
            · simp only [List.map_cons, List.nodup_cons]
              refine ⟨?_, h1⟩
              intro hmem
              obtain ⟨a, ha, hau⟩ := List.mem_map.mp hmem
              have := (h2 a ha).1
              rw [hau] at this
              exact this (by simp [mkNewsArticle])
            · intro a ha
              rcases List.mem_cons.mp ha with rfl | ha
              · refine ⟨by simpa [mkNewsArticle] using hv, ?_,
                  by simpa [mkNewsArticle] using hm, r, List.mem_cons_self r rs,
                  by simpa [mkNewsArticle] using hurl, by simp [mkNewsArticle]⟩
                have : v ∈ (fetch_loop keywords ticker rs (v :: p)).2 :=
                  fetch_loop_mono keywords ticker rs (v :: p) v (List.mem_cons_self v p)
                rw [hq] at this
                simpa [mkNewsArticle] using this
              · obtain ⟨g1, g2, gm, r', hr', g3⟩ := h2 a ha
                exact ⟨fun hap => g1 (List.mem_cons_of_mem _ hap), g2, gm, r',
                  List.mem_cons_of_mem _ hr', g3⟩

theorem fetch_loop_adds_matching (keywords : List Str) (ticker : Str)
    (arts : List RawArticle) :
    ∀ p r u, (∀ r' ∈ arts, r'.url ≠ none) → r ∈ arts → r.url = some u →
      extract_matched_keywords keywords (textOf r) ≠ [] →
      u ∈ (fetch_loop keywords ticker arts p).2 := by
  induction arts with
  | nil => intro p r u _ hr; exact absurd hr (List.not_mem_nil r)
  | cons r0 rs ih =>
    intro p r u hall hr hu hm
    simp only [fetch_loop]
    cases hurl : r0.url with
    | none => exact absurd hurl (hall r0 (List.mem_cons_self r0 rs))
    | some v =>
      dsimp only
      rcases List.mem_cons.mp hr with rfl | hr
      · have hv' : v = u := by rw [hurl] at hu; exact Option.some.inj hu
        subst hv'
        by_cases hv : v ∈ p
        · rw [if_pos hv]
          exact fetch_loop_mono keywords ticker rs p v hv
        · rw [if_neg hv, if_neg (by simpa [mkNewsArticle] using hm)]
          rcases hq : fetch_loop keywords ticker rs (v :: p) with ⟨res, p'⟩
          dsimp only
          have := fetch_loop_mono keywords ticker rs (v :: p) v (List.mem_cons_self v p)
          rw [hq] at this
          exact this
      · have hall' : ∀ r' ∈ rs, r'.url ≠ none :=
          fun r' h => hall r' (List.mem_cons_of_mem _ h)
        by_cases hv : v ∈ p
        · rw [if_pos hv]
          exact ih p r u hall' hr hu hm
        · by_cases hm0 : extract_matched_keywords keywords (textOf r0) = []
          · rw [if_neg hv, if_pos (by simpa [mkNewsArticle] using hm0)]
            exact ih p r u hall' hr hu hm
          · rw [if_neg hv, if_neg (by simpa [mkNewsArticle] using hm0)]
            rcases hq : fetch_loop keywords ticker rs (v :: p) with ⟨res, p'⟩
            dsimp only
            have := ih (v :: p) r u hall' hr hu hm
            rw [hq] at this
            exact this

theorem fetch_loop_ok_of_urls (keywords : List Str) (ticker : Str)
    (arts : List RawArticle) :
    ∀ p, (∀ r ∈ arts, r.url ≠ none) →
      ∃ out, (fetch_loop keywords ticker arts p).1 = .ok out := by
  induction arts with
  | nil => intro p _; exact ⟨[], rfl⟩
  | cons r rs ih =>
    intro p hall
    have hall' : ∀ r' ∈ rs, r'.url ≠ none :=
      fun r' h => hall r' (List.mem_cons_of_mem _ h)
    simp only [fetch_loop]
    cases hurl : r.url with
    | none => exact absurd hurl (hall r (List.mem_cons_self r rs))
    | some v =>
      dsimp only
      by_cases hv : v ∈ p
      · rw [if_pos hv]; exact ih p hall'
      · by_cases hm : extract_matched_keywords keywords (textOf r) = []
        · rw [if_neg hv, if_pos (by simpa [mkNewsArticle] using hm)]
          exact ih p hall'
        · rw [if_neg hv, if_neg (by simpa [mkNewsArticle] using hm)]
          rcases hq : fetch_loop keywords ticker rs (v :: p) with ⟨res, p'⟩
          obtain ⟨out, hout⟩ := ih (v :: p) hall'
          rw [hq] at hout
          dsimp only at hout ⊢
          subst hout
          exact ⟨_, rfl⟩

theorem fetch_loop_append (keywords : List Str) (ticker : Str) (ys : List RawArticle)
    (xs : List RawArticle) :
    ∀ p out p1, fetch_loop keywords ticker xs p = (.ok out, p1) →
      fetch_loop keywords ticker (xs ++ ys) p =
        ((fetch_loop keywords ticker ys p1).1.map (fun o => out ++ o),
         (fetch_loop keywords ticker ys p1).2) := by
  induction xs with
  | nil =>
    intro p out p1 h
    simp only [fetch_loop, Prod.mk.injEq, Except.ok.injEq] at h
    obtain ⟨h1, h2⟩ := h
    subst h1
    subst h2
    simp only [List.nil_append]
    rcases hq : fetch_loop keywords ticker ys p with ⟨res, p'⟩
    cases res <;> simp [Except.map]
  | cons x xs ih =>
    intro p out p1 h
    simp only [fetch_loop, List.cons_append] at h ⊢
    cases hurl : x.url with
    | none =>
      rw [hurl] at h
      dsimp only at h
      exact absurd (congrArg Prod.fst h) (by simp)
    | some v =>
      rw [hurl] at h
      dsimp only at h ⊢
      by_cases hv : v ∈ p
      · rw [if_pos hv] at h ⊢
        exact ih p out p1 h
      · rw [if_neg hv] at h ⊢
        by_cases hm : extract_matched_keywords keywords (textOf x) = []
        · rw [if_pos (by simpa [mkNewsArticle] using hm)] at h ⊢
          exact ih p out p1 h
        · rw [if_neg (by simpa [mkNewsArticle] using hm)] at h ⊢
          rcases hq : fetch_loop keywords ticker xs (v :: p) with ⟨res, p'⟩
          rw [hq] at h
          dsimp only at h
          cases res with
          | error e => simp [Except.map] at h
          | ok out' =>
            simp only [Except.map, Prod.mk.injEq, Except.ok.injEq] at h
            obtain ⟨rfl, rfl⟩ := h
            have hih := ih (v :: p) out' p' hq
            simp only [List.append_eq] at hih ⊢
            rw [hih]
            rcases hq2 : fetch_loop keywords ticker ys p' with ⟨res2, p2⟩
            cases res2 <;> simp [Except.map]

theorem occursIn_append_left (needle pre s : Str) (h : occursIn needle s) :
    occursIn needle (pre ++ s) := by
  obtain ⟨p1, p2, rfl⟩ := h
  exact ⟨pre ++ p1, p2, by simp⟩

theorem lowerStr_append (a b : Str) : lowerStr (a ++ b) = lowerStr a ++ lowerStr b := by
  simp [lowerStr]

theorem mk_title_desc_occurs (keywords : List Str) (ticker : Str) (r : RawArticle)
    (u : Str) (k : Str) (h : occursIn (lowerStr k) (lowerStr (textOf r))) :
    occursIn (lowerStr k)
      (lowerStr ((mkNewsArticle keywords ticker r u).title ++ lit " "
        ++ (mkNewsArticle keywords ticker r u).description)) := by
  cases ht : r.title with
  | some t => simpa [mkNewsArticle, textOf, ht] using h
  | none =>
    have heq : (mkNewsArticle keywords ticker r u).title ++ lit " "
        ++ (mkNewsArticle keywords ticker r u).description
        = lit "No title" ++ textOf r := by
      simp [mkNewsArticle, textOf, ht]
    rw [heq, lowerStr_append]
    exact occursIn_append_left _ _ _ h

theorem fetch_mono (keywords : List Str) (ticker : Str)
    (api : Except ApiErr (List RawArticle)) :
    ∀ p u, u ∈ p → u ∈ (fetch_news_for_ticker keywords ticker api p).2 := by
  intro p u hu
  cases api with
  | error e => simpa [fetch_news_for_ticker] using hu
  | ok arts =>
    simp only [fetch_news_for_ticker]
    rcases hq : fetch_loop keywords ticker arts p with ⟨res, p'⟩
    have h := fetch_loop_mono keywords ticker arts p u hu
    rw [hq] at h
    cases res <;> simpa using h

theorem fetch_emissionOK (keywords : List Str) (ticker : Str)
    (api : Except ApiErr (List RawArticle)) (p : List Str) :
    EmissionOK keywords p (fetch_news_for_ticker keywords ticker api p).2
      (fetch_news_for_ticker keywords ticker api p).1 := by
  cases api with
  | error e => exact ⟨by simp [fetch_news_for_ticker], by simp [fetch_news_for_ticker]⟩
  | ok arts =>
    simp only [fetch_news_for_ticker]
    rcases hq : fetch_loop keywords ticker arts p with ⟨res, p'⟩
    cases res with
    | error e => exact ⟨by simp, by simp⟩
    | ok out =>
      obtain ⟨h1, h2⟩ := fetch_loop_ok_spec keywords ticker arts p out (by rw [hq])
      refine ⟨h1, fun a ha => ?_⟩
      obtain ⟨g1, g2, gm, r, hr, hru, hmk⟩ := h2 a ha
      rw [hq] at g2
      refine ⟨g1, g2, gm, ?_⟩
      have hextract : extract_matched_keywords keywords (textOf r) ≠ [] := by
        rw [hmk] at gm
        simpa [mkNewsArticle] using gm
      obtain ⟨k, hk, hocc⟩ := (extract_ne_nil_iff keywords (textOf r)).mp hextract
      refine ⟨k, hk, ?_⟩
      rw [hmk]
      exact mk_title_desc_occurs keywords ticker r a.url k hocc

theorem emissionOK_append (keywords : List Str) (p p1 p2 : List Str)
    (out1 out2 : List NewsArticle)
    (h1 : EmissionOK keywords p p1 out1) (h2 : EmissionOK keywords p1 p2 out2)
    (hmono : ∀ u ∈ p1, u ∈ p2) (hp : ∀ u ∈ p, u ∈ p1) :
    EmissionOK keywords p p2 (out1 ++ out2) := by
  obtain ⟨n1, f1⟩ := h1
  obtain ⟨n2, f2⟩ := h2
  constructor
  · rw [List.map_append, List.nodup_append]
    refine ⟨n1, n2, ?_⟩
    intro u hu1 hu2
    obtain ⟨a, ha, hau⟩ := List.mem_map.mp hu1
    obtain ⟨b, hb, hbu⟩ := List.mem_map.mp hu2
    have hin : u ∈ p1 := by rw [← hau]; exact (f1 a ha).2.1
    have hnot : u ∉ p1 := by rw [← hbu]; exact (f2 b hb).1
    exact hnot hin
  · intro a ha
    rcases List.mem_append.mp ha with ha | ha
    · obtain ⟨g1, g2, g3, g4⟩ := f1 a ha
      exact ⟨g1, hmono _ g2, g3, g4⟩
    · obtain ⟨g1, g2, g3, g4⟩ := f2 a ha
      exact ⟨fun hap => g1 (hp _ hap), g2, g3, g4⟩

theorem check_news_mono (keywords : List Str)
    (env : Str → Except ApiErr (List RawArticle)) (tickers : List Str) :
    ∀ p u, u ∈ p → u ∈ (check_news keywords env tickers p).2 := by
  induction tickers with
  | nil => intro p u hu; simpa [check_news] using hu
  | cons t ts ih =>
    intro p u hu
    simp only [check_news]
    rcases hq : fetch_news_for_ticker keywords t (env t) p with ⟨arts, p'⟩
    rcases hq2 : check_news keywords env ts p' with ⟨rest, p''⟩
    dsimp only
    have h1 := fetch_mono keywords t (env t) p u hu
    rw [hq] at h1
    have h2 := ih p' u h1
    rw [hq2] at h2
    exact h2

theorem check_news_emissionOK (keywords : List Str)
    (env : Str → Except ApiErr (List RawArticle)) (tickers : List Str) :
    ∀ p, EmissionOK keywords p (check_news keywords env tickers p).2
      (check_news keywords env tickers p).1 := by
  induction tickers with
  | nil => intro p; exact ⟨by simp [check_news], by simp [check_news]⟩
  | cons t ts ih =>
    intro p
    simp only [check_news]
    rcases hq : fetch_news_for_ticker keywords t (env t) p with ⟨arts, p'⟩
    rcases hq2 : check_news keywords env ts p' with ⟨rest, p''⟩
    dsimp only
    have h1 := fetch_emissionOK keywords t (env t) p
    rw [hq] at h1
    have h2 := ih p'
    rw [hq2] at h2
    refine emissionOK_append keywords p p' p'' arts rest h1 h2 ?_ ?_
    · intro u hu
      have := check_news_mono keywords env ts p' u hu
      rw [hq2] at this
      exact this
    · intro u hu
      have := fetch_mono keywords t (env t) p u hu
      rw [hq] at this
      exact this

theorem run_cycles_mono (keywords : List Str) (tickers : List Str)
    (envs : List (Str → Except ApiErr (List RawArticle))) :
    ∀ p u, u ∈ p → u ∈ (run_cycles keywords tickers envs p).2 := by
  induction envs with
  | nil => intro p u hu; simpa [run_cycles] using hu
  | cons env envs ih =>
    intro p u hu
    simp only [run_cycles]
    rcases hq : check_news keywords env tickers p with ⟨out, p'⟩
    rcases hq2 : run_cycles keywords tickers envs p' with ⟨rest, p''⟩
    dsimp only
    have h1 := check_news_mono keywords env tickers p u hu
    rw [hq] at h1
    have h2 := ih p' u h1
    rw [hq2] at h2
    exact h2

theorem run_cycles_emissionOK (keywords : List Str) (tickers : List Str)
    (envs : List (Str → Except ApiErr (List RawArticle))) :
    ∀ p, EmissionOK keywords p (run_cycles keywords tickers envs p).2
      (run_cycles keywords tickers envs p).1 := by
  induction envs with
  | nil => intro p; exact ⟨by simp [run_cycles], by simp [run_cycles]⟩
  | cons env envs ih =>
    intro p
    simp only [run_cycles]
    rcases hq : check_news keywords env tickers p with ⟨out, p'⟩
    rcases hq2 : run_cycles keywords tickers envs p' with ⟨rest, p''⟩
    dsimp only
    have h1 := check_news_emissionOK keywords env tickers p
    rw [hq] at h1
    have h2 := ih p'
    rw [hq2] at h2
    refine emissionOK_append keywords p p' p'' out rest h1 h2 ?_ ?_
    · intro u hu
      have := run_cycles_mono keywords tickers envs p' u hu
      rw [hq2] at this
      exact this
    · intro u hu
      have := check_news_mono keywords env tickers p u hu
      rw [hq] at this
      exact this

theorem filter_url_length_le_one (l : List NewsArticle)
    (h : (l.map (fun a => a.url)).Nodup) (u : Str) :
    (l.filter (fun a => a.url == u)).length ≤ 1 := by
  induction l with
  | nil => simp
  | cons a t ih =>
    simp only [List.map_cons, List.nodup_cons] at h
    obtain ⟨ha, ht⟩ := h
    by_cases hau : a.url = u
    · have hnone : t.filter (fun b => b.url == u) = [] := by
        rw [List.filter_eq_nil_iff]
        intro b hb
        simp only [beq_iff_eq]
        intro hbu
        exact ha (List.mem_map.mpr ⟨b, hb, by rw [hbu, hau]⟩)
      simp [List.filter_cons, hau, hnone]
    · simp only [List.filter_cons]
      rw [if_neg (by simpa using hau)]
      exact ih ht

/-- C1: over any process lifetime (any sequence of cycles starting from the
empty seen set), each URL is emitted at most once; every emitted article
has a non-empty matched keyword list, witnessed by a configured keyword
occurring case-insensitively as a substring of the article's
title-and-description text (title and description joined by one space,
exactly as the code builds the matching text); and in the scenario where
two consecutive cycles fetch the same raw article and it has a keyword
match, it is emitted exactly once, in the first cycle. -/
theorem c1_emitted_once_only_matched (keywords tickers : List Str)
    (envs : List (Str → Except ApiErr (List RawArticle))) :
    (∀ u : Str, ((run_cycles keywords tickers envs []).1.filter
        (fun a => a.url == u)).length ≤ 1)
    ∧ (∀ a ∈ (run_cycles keywords tickers envs []).1,
        a.matched_keywords ≠ [] ∧
        ∃ k ∈ keywords, occursIn (lowerStr k)
          (lowerStr (a.title ++ lit " " ++ a.description)))
    ∧ (∀ (t : Str) (r : RawArticle) (u : Str)
        (e1 e2 : Str → Except ApiErr (List RawArticle)),
        e1 t = .ok [r] → e2 t = .ok [r] → r.url = some u →
        extract_matched_keywords keywords (textOf r) ≠ [] →
        ((run_cycles keywords [t] [e1, e2] []).1.filter
          (fun a => a.url == u)).length = 1) := by
  obtain ⟨hnodup, hall⟩ := run_cycles_emissionOK keywords tickers envs []
  refine ⟨fun u => filter_url_length_le_one _ hnodup u, ?_, ?_⟩
  · intro a ha
    obtain ⟨_, _, g3, g4⟩ := hall a ha
    exact ⟨g3, g4⟩
  · intro t r u e1 e2 he1 he2 hurl hm
    have hloop1 : fetch_loop keywords t [r] [] =
        (.ok [mkNewsArticle keywords t r u], [u]) := by
      simp [fetch_loop, hurl, mkNewsArticle, hm, Except.map]
    have hloop2 : fetch_loop keywords t [r] [u] = (.ok [], [u]) := by
      simp [fetch_loop, hurl]
    have hrun : run_cycles keywords [t] [e1, e2] [] =
        ([mkNewsArticle keywords t r u], [u]) := by
      simp [run_cycles, check_news, fetch_news_for_ticker, he1, he2, hloop1, hloop2]
    rw [hrun]
    simp [mkNewsArticle, List.filter]

/-- Witness for C1's two-cycle scenario at a concrete article. -/
theorem c1_witness :
    ((run_cycles [lit "clima"] [lit "B3"]
        [fun _ => .ok [⟨some (lit "Clima"), some (lit "u1"), none, none, none⟩],
         fun _ => .ok [⟨some (lit "Clima"), some (lit "u1"), none, none, none⟩]]
        []).1.filter (fun a => a.url == lit "u1")).length = 1 :=
  (c1_emitted_once_only_matched [lit "clima"] [lit "B3"] []).2.2 (lit "B3")
    ⟨some (lit "Clima"), some (lit "u1"), none, none, none⟩ (lit "u1")
    (fun _ => .ok [⟨some (lit "Clima"), some (lit "u1"), none, none, none⟩])
    (fun _ => .ok [⟨some (lit "Clima"), some (lit "u1"), none, none, none⟩])
    rfl rfl rfl (by decide)

theorem mkBacktestArticle_raises (keywords : List Str) (ticker : Str) (r : RawArticle)
    (u : Str) :
    mkBacktestArticle keywords ticker r u = .error (.typeError (lit "source")) := rfl

theorem backtest_fetch_loop_cases (keywords : List Str) (ticker : Str)
    (arts : List RawArticle) :
    ∀ p, backtest_fetch_loop keywords ticker arts p = (.ok [], p)
      ∨ ∃ e, backtest_fetch_loop keywords ticker arts p = (.error e, p) := by
  induction arts with
  | nil => intro p; exact Or.inl rfl
  | cons r rs ih =>
    intro p
    simp only [backtest_fetch_loop]
    cases hurl : r.url with
    | none => exact Or.inr ⟨_, rfl⟩
    | some v =>
      dsimp only
      by_cases hv : v ∈ p
      · rw [if_pos hv]; exact ih p
      · rw [if_neg hv, mkBacktestArticle_raises]
        exact Or.inr ⟨_, rfl⟩

theorem backtest_fetch_empty (keywords : List Str) (ticker : Str)
    (api : Except ApiErr (List RawArticle)) (p : List Str) :
    backtest_fetch_news_for_ticker keywords ticker api p = ([], p) := by
  cases api with
  | error e => rfl
  | ok arts =>
    simp only [backtest_fetch_news_for_ticker]
    rcases backtest_fetch_loop_cases keywords ticker arts p with h | ⟨e, h⟩ <;> rw [h]

/-- C2: in the backtest variant, for every raw article with a URL not in the
seen set, the `NewsArticle(...)` construction raises `TypeError` (on the
undeclared `source` keyword argument, the first of the two undeclared
kwargs passed), the fetch-level handler catches it, and
`fetch_news_for_ticker` returns the empty list — so a cycle receiving at
least one unseen raw article emits no articles in this variant. -/
theorem c2_backtest_construction_raises (keywords : List Str) (ticker : Str)
    (r : RawArticle) (u : Str) (arts : List RawArticle) (p : List Str)
    (hr : r ∈ arts) (hu : r.url = some u) (hunseen : u ∉ p) :
    mkBacktestArticle keywords ticker r u = .error (.typeError (lit "source"))
    ∧ backtest_fetch_news_for_ticker keywords ticker (.ok arts) p = ([], p) :=
  ⟨mkBacktestArticle_raises keywords ticker r u,
   backtest_fetch_empty keywords ticker (.ok arts) p⟩

/-- Witness for C2 at a concrete unseen article. -/
theorem c2_witness :
    mkBacktestArticle [lit "clima"] (lit "ADM")
        ⟨some (lit "Clima"), some (lit "u1"), none, none, none⟩ (lit "u1")
      = .error (.typeError (lit "source"))
    ∧ backtest_fetch_news_for_ticker [lit "clima"] (lit "ADM")
        (.ok [⟨some (lit "Clima"), some (lit "u1"), none, none, none⟩]) [] = ([], []) :=
  c2_backtest_construction_raises [lit "clima"] (lit "ADM")
    ⟨some (lit "Clima"), some (lit "u1"), none, none, none⟩ (lit "u1")
    [⟨some (lit "Clima"), some (lit "u1"), none, none, none⟩] []
    (List.mem_singleton.mpr rfl) rfl (by decide)

/-- C3: an external-API failure for a ticker makes `fetch_news_for_ticker`
return the empty list with the seen set unchanged, the cycle continues with
the remaining tickers in configured order as if the failed ticker
contributed nothing, and any exception raised while processing the
response is likewise caught at the fetch boundary (the fetch returns the
empty list rather than propagating). -/
theorem c3_api_failure_contained (keywords : List Str) (t : Str) (e : ApiErr)
    (env : Str → Except ApiErr (List RawArticle)) (rest : List Str) (p : List Str)
    (henv : env t = .error e) :
    fetch_news_for_ticker keywords t (env t) p = ([], p)
    ∧ check_news keywords env (t :: rest) p = check_news keywords env rest p
    ∧ (∀ arts err pe, fetch_loop keywords t arts p = (.error err, pe) →
        fetch_news_for_ticker keywords t (.ok arts) p = ([], pe)) := by
  refine ⟨by rw [henv]; rfl, ?_, ?_⟩
  · simp only [check_news, henv]
    rcases hq : check_news keywords env rest p with ⟨restOut, p''⟩
    dsimp only [fetch_news_for_ticker]
    simp [hq]
  · intro arts err pe h
    simp [fetch_news_for_ticker, h]

/-- Witness for C3: a network error for ticker `B3` yields an empty fetch
and the cycle result equals the cycle over the remaining tickers. -/
theorem c3_witness :
    fetch_news_for_ticker [lit "clima"] (lit "B3") (.error .network) [] = ([], [])
    ∧ check_news [lit "clima"] (fun _ => .error .network)
        [lit "B3", lit "ADM"] []
      = check_news [lit "clima"] (fun _ => .error .network) [lit "ADM"] [] := by
  have h := c3_api_failure_contained [lit "clima"] (lit "B3") .network
    (fun _ => .error .network) [lit "ADM"] [] rfl
  exact ⟨h.1, h.2.1⟩

/-- C6: a fetched article whose title+description text matches no
configured keyword (case-insensitively, as a substring) is never emitted,
and its URL is added to the seen set by no such article — it stays exactly
as seen or unseen as before, so it remains eligible for re-fetching and
re-evaluation in a later cycle. -/
theorem c6_nonmatching_not_marked (keywords : List Str) (t u : Str)
    (arts : List RawArticle) (p : List Str)
    (h : ∀ r ∈ arts, r.url = some u →
      ¬ ∃ k ∈ keywords, occursIn (lowerStr k) (lowerStr (textOf r))) :
    (∀ a ∈ (fetch_news_for_ticker keywords t (.ok arts) p).1, a.url ≠ u)
    ∧ (u ∈ (fetch_news_for_ticker keywords t (.ok arts) p).2 ↔ u ∈ p) := by
  have h' : ∀ r ∈ arts, r.url = some u →
      extract_matched_keywords keywords (textOf r) = [] := by
    intro r hr hu
    by_contra hne
    exact h r hr hu ((extract_ne_nil_iff keywords (textOf r)).mp hne)
  constructor
  · intro a ha hau
    revert ha
    simp only [fetch_news_for_ticker]
    rcases hq : fetch_loop keywords t arts p with ⟨res, p'⟩
    cases res with
    | error e => simp
    | ok out =>
      dsimp only
      intro ha
      obtain ⟨_, h2⟩ := fetch_loop_ok_spec keywords t arts p out (by rw [hq])
      obtain ⟨_, _, gm, r, hr, hru, hmk⟩ := h2 a ha
      rw [hau] at hru
      have : extract_matched_keywords keywords (textOf r) = [] := h' r hr hru
      rw [hmk] at gm
      exact gm (by simpa [mkNewsArticle] using this)
  · constructor
    · simp only [fetch_news_for_ticker]
      rcases hq : fetch_loop keywords t arts p with ⟨res, p'⟩
      have hsnd := fetch_loop_snd_mem keywords t arts p u
      rw [hq] at hsnd
      have : u ∈ p' → u ∈ p := by
        intro hu
        rcases hsnd hu with h0 | ⟨r, hr, hru, hne⟩
        · exact h0
        · exact absurd (h' r hr hru) hne
      cases res <;> simpa using this
    · intro hu
      exact fetch_mono keywords t (.ok arts) p u hu

/-- Witness for C6 at a concrete non-matching article: its URL stays
unseen. -/
theorem c6_witness :
    lit "u1" ∈ (fetch_news_for_ticker [lit "clima"] (lit "B3")
      (.ok [⟨some (lit "Bolsa"), some (lit "u1"), none, some (lit "nada"), none⟩]) []).2
    ↔ lit "u1" ∈ ([] : List Str) :=
  (c6_nonmatching_not_marked [lit "clima"] (lit "B3") (lit "u1")
    [⟨some (lit "Bolsa"), some (lit "u1"), none, some (lit "nada"), none⟩] []
    (by
      intro r hr hu
      simp only [List.mem_singleton] at hr
      subst hr
      rw [← extract_ne_nil_iff]
      decide)).2

/-- C10: the monitor-variant fetch is not atomic with respect to the seen
set: when the per-article loop raises partway (a raw article without a
`url` key after some well-formed articles), the fetch returns the empty
list, yet the URLs of the matching articles processed before the failure
are already in the seen set, and no article bearing a URL from that seen
set is ever emitted by any later cycle. -/
theorem c10_nonatomic_marking (keywords : List Str) (t : Str) (good : List RawArticle)
    (bad : RawArticle) (rest : List RawArticle) (p : List Str)
    (hbad : bad.url = none) (hgood : ∀ r ∈ good, r.url ≠ none) :
    (fetch_news_for_ticker keywords t (.ok (good ++ bad :: rest)) p).1 = []
    ∧ (∀ r ∈ good, ∀ u, r.url = some u →
        extract_matched_keywords keywords (textOf r) ≠ [] →
        u ∈ (fetch_news_for_ticker keywords t (.ok (good ++ bad :: rest)) p).2)
    ∧ (∀ (tickers : List Str) (envs : List (Str → Except ApiErr (List RawArticle))),
        ∀ a ∈ (run_cycles keywords tickers envs
            (fetch_news_for_ticker keywords t (.ok (good ++ bad :: rest)) p).2).1,
        a.url ∉ (fetch_news_for_ticker keywords t (.ok (good ++ bad :: rest)) p).2) := by
  obtain ⟨outg, hout⟩ := fetch_loop_ok_of_urls keywords t good p hgood
  rcases hq : fetch_loop keywords t good p with ⟨resg, pg⟩
  rw [hq] at hout
  dsimp only at hout
  subst hout
  have hbadloop : fetch_loop keywords t (bad :: rest) pg =
      (.error (.keyError (lit "url")), pg) := by
    simp [fetch_loop, hbad]
  have happ := fetch_loop_append keywords t (bad :: rest) good p outg pg hq
  rw [hbadloop] at happ
  simp only [Except.map] at happ
  have hfetch : fetch_news_for_ticker keywords t (.ok (good ++ bad :: rest)) p
      = ([], pg) := by
    simp [fetch_news_for_ticker, happ]
  rw [hfetch]
  refine ⟨rfl, ?_, ?_⟩
  · intro r hr u hu hm
    have := fetch_loop_adds_matching keywords t good p r u hgood hr hu hm
    rw [hq] at this
    exact this
  · intro tickers envs a ha
    obtain ⟨_, hall⟩ := run_cycles_emissionOK keywords tickers envs pg
    exact (hall a ha).1

/-- Witness for C10: a matching article followed by a URL-less article
marks the first article's URL seen while emitting nothing. -/
theorem c10_witness :
    (fetch_news_for_ticker [lit "clima"] (lit "B3")
      (.ok [⟨some (lit "Clima"), some (lit "u1"), none, none, none⟩,
            ⟨some (lit "x"), none, none, none, none⟩]) []).1 = []
    ∧ lit "u1" ∈ (fetch_news_for_ticker [lit "clima"] (lit "B3")
      (.ok [⟨some (lit "Clima"), some (lit "u1"), none, none, none⟩,
            ⟨some (lit "x"), none, none, none, none⟩]) []).2 := by
  have h := c10_nonatomic_marking [lit "clima"] (lit "B3")
    [⟨some (lit "Clima"), some (lit "u1"), none, none, none⟩]
    ⟨some (lit "x"), none, none, none, none⟩ [] [] rfl (by decide)
  exact ⟨h.1, h.2.1 ⟨some (lit "Clima"), some (lit "u1"), none, none, none⟩
    (List.mem_singleton.mpr rfl) (lit "u1") rfl (by decide)⟩

/-- C8: `analyze_with_ai` ignores its URL and returns the fixed neutral
payload (sentiment `neutral`, impact score one half, the fixed summary,
recommendation `monitor`); and for any article, if the AI call raises, the
sink logs the error and closes the block with a separator line in place of
the AI-summary line — the block lines before the AI step are written in
every case, so the article block is never blocked by the AI call. -/
theorem c8_ai_stub_never_blocks :
    (∀ url : Str, analyze_with_ai url =
      { sentiment := lit "neutral", impact_score := 1 / 2,
        summary := lit "AI analysis not yet implemented",
        recommendation := lit "monitor" })
    ∧ (∀ (ai : Str → Except PyErr AIResult) (ts : Str) (a : NewsArticle) (e : PyErr),
        ai a.url = .error e →
        process_article ai ts a = article_block_lines ts a
          ++ [lit "Error in AI analysis: " ++ pyErrRepr e, sepLine ++ lit "\n"])
    ∧ (∀ (ts : Str) (a : NewsArticle),
        process_article (fun u => .ok (analyze_with_ai u)) ts a
          = article_block_lines ts a
            ++ [lit "AI Analysis: AI analysis not yet implemented\n"])
    ∧ (∀ (ai : Str → Except PyErr AIResult) (ts : Str) (a : NewsArticle),
        ∃ tail, process_article ai ts a = article_block_lines ts a ++ tail) := by
  refine ⟨fun url => rfl, ?_, ?_, ?_⟩
  · intro ai ts a e h
    simp [process_article, h]
  · intro ts a
    simp only [process_article, analyze_with_ai]
    have : lit "AI Analysis: " ++ lit "AI analysis not yet implemented" ++ lit "\n"
        = lit "AI Analysis: AI analysis not yet implemented\n" := by decide
    rw [← this]
  · intro ai ts a
    cases h : ai a.url with
    | ok r =>
      exact ⟨[lit "AI Analysis: " ++ r.summary ++ lit "\n"],
        by simp [process_article, h]⟩
    | error e =>
      exact ⟨[lit "Error in AI analysis: " ++ pyErrRepr e, sepLine ++ lit "\n"],
        by simp [process_article, h]⟩

/-- Witness for C8's failing-AI branch at a concrete article. -/
theorem c8_witness :
    process_article (fun _ => .error (.typeError (lit "x"))) (lit "2026-01-01")
        ⟨lit "T", lit "u1", lit "d", lit "desc", [lit "clima"], some (lit "B3")⟩
      = article_block_lines (lit "2026-01-01")
          ⟨lit "T", lit "u1", lit "d", lit "desc", [lit "clima"], some (lit "B3")⟩
        ++ [lit "Error in AI analysis: " ++ pyErrRepr (.typeError (lit "x")),
            sepLine ++ lit "\n"] :=
  c8_ai_stub_never_blocks.2.1 (fun _ => .error (.typeError (lit "x")))
    (lit "2026-01-01")
    ⟨lit "T", lit "u1", lit "d", lit "desc", [lit "clima"], some (lit "B3")⟩
    (.typeError (lit "x")) rfl

set_option maxRecDepth 4000 in
/-- C9: the logged description line of an emitted article holds the first
200 characters followed by `...` when the description is longer than 200
characters, and the unmodified description otherwise; a 250-character
description is logged as its first 200 characters plus the ellipsis. -/
theorem c9_description_truncated (ai : Str → Except PyErr AIResult) (ts : Str)
    (a : NewsArticle) :
    (a.description.length > 200 →
      lit "Description: " ++ a.description.take 200 ++ lit "...\n"
        ∈ process_article ai ts a)
    ∧ (a.description ≠ [] → a.description.length ≤ 200 →
      lit "Description: " ++ a.description ++ lit "\n" ∈ process_article ai ts a)
    ∧ (lit "Description: " ++ List.replicate 200 'a' ++ lit "...\n"
        ∈ process_article ai ts { a with description := List.replicate 250 'a' }) := by
  have hsplit : lit "...\n" = lit "..." ++ lit "\n" := by decide
  refine ⟨?_, ?_, ?_⟩
  · intro hlen
    have hne : a.description ≠ [] := by
      intro h0
      rw [h0] at hlen
      simp at hlen
    simp only [process_article, article_block_lines, if_pos hne, if_pos hlen]
    refine List.mem_append.mpr (Or.inl (List.mem_append.mpr (Or.inr ?_)))
    rw [hsplit]
    simp [List.append_assoc]
  · intro hne hlen
    have hnot : ¬ a.description.length > 200 := by omega
    simp only [process_article, article_block_lines, if_pos hne, if_neg hnot]
    exact List.mem_append.mpr (Or.inl (List.mem_append.mpr (Or.inr (by simp))))
  · have hne : (List.replicate 250 'a' : Str) ≠ [] := by
      intro h0
      have := congrArg List.length h0
      rw [List.length_replicate] at this
      simp at this
    have hlen : (List.replicate 250 'a' : Str).length > 200 := by
      rw [List.length_replicate]
      omega
    simp only [process_article, article_block_lines, if_pos hne, if_pos hlen]
    refine List.mem_append.mpr (Or.inl (List.mem_append.mpr (Or.inr ?_)))
    rw [List.take_replicate]
    have hmin : min 200 250 = 200 := by norm_num
    rw [hmin, hsplit]
    simp [List.append_assoc]

/-- Witness for C9 at a concrete 250-character description. -/
theorem c9_witness :
    lit "Description: " ++ (List.replicate 250 'a').take 200 ++ lit "...\n"
      ∈ process_article (fun u => .ok (analyze_with_ai u)) (lit "2026-01-01")
        ⟨lit "T", lit "u1", lit "d", List.replicate 250 'a', [lit "clima"],
          some (lit "B3")⟩ :=
  (c9_description_truncated (fun u => .ok (analyze_with_ai u)) (lit "2026-01-01")
    ⟨lit "T", lit "u1", lit "d", List.replicate 250 'a', [lit "clima"],
      some (lit "B3")⟩).1 (by rw [List.length_replicate]; omega)
